import Mathlib

/-!
# SimpleOS core: virtual filesystem and window manager — verification

Shallow embedding of the two core subsystems of the SimpleOS desktop shell:

* the `VirtualFileSystem` class of `src/os/apps/SettingsApp.tsx` (a flat
  `Map<string, FileMetadata>` keyed by path, persisted to localStorage; here
  the map is modelled as an insertion-ordered association list and each
  method becomes a state-passing function);
* the zustand window-manager store of `src/os/window-manager.ts` (a list of
  window records plus a global `nextZIndex` counter).

JavaScript strings are modelled as `List Char` (`JStr`); `Date.now()` is an
explicit `now : Nat` argument; the viewport dimensions read by
`toggleMaximize` are explicit arguments; `throw new Error(msg)` in
`createFolder` is modelled as `Except.error msg`.
-/

/-- JavaScript string, modelled as its character sequence. -/
abbrev JStr := List Char

/-- The path separator character. -/
def sep : Char := '/'

/-- Model of `normalizePath` from `SettingsApp.tsx`: `path.replace(/^\/+|\/+$/g, '')`,
removing every leading and trailing slash (the `if (!path) return ''` guard
is subsumed: the empty string is already fixed by the replacement). -/
def normalizePath (p : JStr) : JStr :=
  ((p.dropWhile (· = sep)).reverse.dropWhile (· = sep)).reverse

/-- Model of `FileMetadata` from `SettingsApp.tsx`. -/
structure FileMetadata where
  name : JStr
  path : JStr
  content : JStr
  size : Nat
  modified : Nat
  created : Nat
  isFolder : Bool
deriving Repr, DecidableEq

/-- The backing `Map<string, FileMetadata>`: an insertion-ordered association
list, as produced by `new Map(JSON.parse(data))`. -/
abbrev Store := List (JStr × FileMetadata)

/-- Model of `Map.get` / `Map.has`: the value at the first (and, for a genuine map,
only) entry with the given key. -/
def mapFind (files : Store) (k : JStr) : Option FileMetadata :=
  (files.find? (fun e => e.1 = k)).map (fun e => e.2)

/-- Model of `Map.set`: replace the value in place if the key is present (a JS `Map`
keeps the original insertion position), otherwise append a new entry. -/
def mapSet (files : Store) (k : JStr) (v : FileMetadata) : Store :=
  if (files.find? (fun e => e.1 = k)).isSome then
    files.map (fun e => if e.1 = k then (k, v) else e)
  else
    files ++ [(k, v)]

/-- Model of `Map.delete k`: remove the entry with key `k`. -/
def mapDelete (files : Store) (k : JStr) : Store :=
  files.filter (fun e => ¬ e.1 = k)

/-- The full path computed by `writeFile`/`createFolder`:
`folder ? normalizePath(folder) + "/" + name : name` (truthiness of a JS
string is non-emptiness). -/
def childPath (folder name : JStr) : JStr :=
  if folder = [] then name else normalizePath folder ++ sep :: name

/-- Model of `VirtualFileSystem.writeFile(filename, content, folder)`; `Date.now()` is
the explicit `now` argument; `existing?.created || now` keeps the previous
`created` only when it is truthy (non-zero). -/
def writeFile (files : Store) (filename content folder : JStr) (now : Nat) : Store :=
  let fullPath := childPath folder filename
  let existing := mapFind files fullPath
  let created := match existing with
    | some e => if e.created = 0 then now else e.created
    | none => now
  mapSet files fullPath
    { name := filename, path := fullPath, content := content,
      size := content.length, modified := now, created := created,
      isFolder := false }

/-- Model of `VirtualFileSystem.createFolder(folderName, parentFolder)`;
`throw new Error("Folder already exists")` is modelled as `Except.error`. -/
def createFolder (files : Store) (folderName parentFolder : JStr) (now : Nat) :
    Except JStr Store :=
  let fullPath := childPath parentFolder folderName
  if (mapFind files fullPath).isSome then
    Except.error "Folder already exists".toList
  else
    Except.ok (mapSet files fullPath
      { name := folderName, path := fullPath, content := [],
        size := 0, modified := now, created := now, isFolder := true })

/-- The fallback-scan condition shared by `readFile` and `deleteFile`:
`normalizedFilePath === normalizedPath || filePath === normalizedPath ||
filePath === path`. -/
def matchesPath (normalizedPath path : JStr) (e : JStr × FileMetadata) : Bool :=
  normalizePath e.1 = normalizedPath || e.1 = normalizedPath || e.1 = path

/-- Model of `VirtualFileSystem.readFile(path)`: exact lookup of the normalized path,
then a linear fallback scan; `null` (no readable content, also for folders)
is `none`. -/
def readFile (files : Store) (path : JStr) : Option JStr :=
  let normalizedPath := normalizePath path
  let file := match mapFind files normalizedPath with
    | some f => some f
    | none =>
      (files.find? (matchesPath normalizedPath path)).map
        (fun (e : JStr × FileMetadata) => e.2)
  match file with
  | some f => if f.isFolder then none else some f.content
  | none => none

/-- Model of `VirtualFileSystem.deleteFile(path)`: resolve the entry (exact normalized
match, then fallback scan, remembering the actual stored key); a folder is
deleted together with every key equal to it or starting with it plus `"/"`;
a file alone. Returns the success flag with the new store. -/
def deleteFile (files : Store) (path : JStr) : Bool × Store :=
  let normalizedPath := normalizePath path
  let found : Option (JStr × FileMetadata) :=
    match mapFind files normalizedPath with
    | some f => some (normalizedPath, f)
    | none => files.find? (matchesPath normalizedPath path)
  match found with
  | none => (false, files)
  | some (actualPath, file) =>
    if file.isFolder then
      (true, files.filter
        (fun e => ¬ (e.1 = actualPath ∨ (actualPath ++ [sep]).isPrefixOf e.1)))
    else
      (true, mapDelete files actualPath)

/-- The key a cascading `moveFile`/`renameFile` gives to an entry of the moved
subtree: the root `src` goes to `dst`, and `src ++ "/" ++ rel` goes to
`dst ++ "/" ++ rel` (computed, as in the source, by dropping
`src.length + 1` characters). -/
def newKeyFor (src dst k : JStr) : JStr :=
  let relativePath := if k = src then [] else k.drop (src.length + 1)
  if relativePath = [] then dst else dst ++ sep :: relativePath

/-- The collect-then-apply cascade shared by `moveFile` and `renameFile`:
collect every entry whose key is `src` or starts with `src ++ "/"` together
with its new key, delete all old keys, then `Map.set` each new key; `F`
rebuilds the stored metadata from the new key (the two callers differ only
in how they set `name`). -/
def cascadeRekey (files : Store) (src dst : JStr)
    (F : JStr → FileMetadata → FileMetadata) : Store :=
  let toMove := (files.filter
      (fun e => e.1 = src ∨ (src ++ [sep]).isPrefixOf e.1)).map
    (fun e => (e.1, newKeyFor src dst e.1, e.2))
  let afterDelete := toMove.foldl (fun fs m => mapDelete fs m.1) files
  toMove.foldl (fun fs m => mapSet fs m.2.1 (F m.2.1 m.2.2)) afterDelete

/-- Model of `VirtualFileSystem.moveFile(sourcePath, targetFolder)`. -/
def moveFile (files : Store) (sourcePath targetFolder : JStr) : Bool × Store :=
  let normalizedSource := normalizePath sourcePath
  let normalizedTarget := normalizePath targetFolder
  match mapFind files normalizedSource with
  | none => (false, files)
  | some sourceFile =>
    let newPath := if normalizedTarget = [] then sourceFile.name
      else normalizedTarget ++ sep :: sourceFile.name
    if (mapFind files newPath).isSome then (false, files)
    else if sourceFile.isFolder then
      (true, cascadeRekey files normalizedSource newPath
        (fun np m => { m with path := np }))
    else
      (true, mapSet (mapDelete files normalizedSource) newPath
        { sourceFile with path := newPath })

/-- Model of `VirtualFileSystem.renameFile(path, newName)`: replace the last `/`-split
segment of the normalized path. -/
def renameFile (files : Store) (path newName : JStr) : Bool × Store :=
  let normalizedPath := normalizePath path
  match mapFind files normalizedPath with
  | none => (false, files)
  | some file =>
    let pathParts := normalizedPath.splitOn sep
    let newPath := List.intercalate [sep] (pathParts.dropLast ++ [newName])
    if (mapFind files newPath).isSome then (false, files)
    else if file.isFolder then
      (true, cascadeRekey files normalizedPath newPath
        (fun np m =>
          { m with
            path := np, name := if np = newPath then newName else m.name }))
    else
      (true, mapSet (mapDelete files normalizedPath) newPath
        { file with path := newPath, name := newName })

/-!
## Window manager (`src/os/window-manager.ts`)

The zustand store is a record `WMState` of the window list and the global
`nextZIndex` counter (initially 1000). `component : ReactNode` is opaque and
modelled as a `Nat` tag; the viewport dimensions read by `toggleMaximize`
(`window.innerWidth` / `innerHeight`) are explicit arguments.
-/

/-- Model of `WindowState` from `window-manager.ts`; the optional
`prevX`/`prevY`/`prevWidth`/`prevHeight` snapshot fields are `Option Int`
(`undefined` is `none`). -/
structure WindowState where
  id : String
  title : String
  component : Nat
  x : Int
  y : Int
  width : Int
  height : Int
  minimized : Bool
  maximized : Bool
  zIndex : Nat
  prevX : Option Int := none
  prevY : Option Int := none
  prevWidth : Option Int := none
  prevHeight : Option Int := none
deriving Repr, DecidableEq

/-- The zustand store state: `windows` plus the global `nextZIndex`. -/
structure WMState where
  windows : List WindowState
  nextZIndex : Nat
deriving Repr, DecidableEq

/-- The initial store: `windows: [], nextZIndex: 1000`. -/
def initWM : WMState := { windows := [], nextZIndex := 1000 }

/-- The `options` object of `openWindow`
(`Partial<...>`; only `x`, `y`, `width`, `height` are consulted). -/
structure OpenOptions where
  x : Option Int := none
  y : Option Int := none
  width : Option Int := none
  height : Option Int := none
deriving Repr, DecidableEq

/-- Model of `bringToFront(id)`: give the matching window the current `nextZIndex` and
increment the counter. -/
def bringToFront (s : WMState) (id : String) : WMState :=
  { windows := s.windows.map
      (fun w => if w.id = id then { w with zIndex := s.nextZIndex } else w),
    nextZIndex := s.nextZIndex + 1 }

/-- Model of `restoreWindow(id)`: clear `minimized` on the matching window and give it
the current `nextZIndex`. -/
def restoreWindow (s : WMState) (id : String) : WMState :=
  { windows := s.windows.map
      (fun w => if w.id = id then
        { w with minimized := false, zIndex := s.nextZIndex } else w),
    nextZIndex := s.nextZIndex + 1 }

/-- Model of `openWindow(id, title, component, options)`: an existing id degrades to
`restoreWindow`/`bringToFront`; otherwise a fresh record is appended with
staggered default geometry and the next z-index. -/
def openWindow (s : WMState) (id title : String) (component : Nat)
    (options : OpenOptions) : WMState :=
  match s.windows.find? (fun w => w.id = id) with
  | some existing =>
    if existing.minimized then restoreWindow s id else bringToFront s id
  | none =>
    let nz := s.nextZIndex
    let newWindow : WindowState :=
      { id := id, title := title, component := component,
        x := options.x.getD (100 + (s.windows.length : Int) * 30),
        y := options.y.getD (100 + (s.windows.length : Int) * 30),
        width := options.width.getD 600,
        height := options.height.getD 400,
        minimized := false, maximized := false, zIndex := nz }
    { windows := s.windows ++ [newWindow], nextZIndex := nz + 1 }

/-- Model of `closeWindow(id)`: filter the record out (`nextZIndex` untouched). -/
def closeWindow (s : WMState) (id : String) : WMState :=
  { s with windows := s.windows.filter (fun w => ¬ w.id = id) }

/-- Model of `minimizeWindow(id)`: set `minimized` on the matching window. -/
def minimizeWindow (s : WMState) (id : String) : WMState :=
  { s with
    windows := s.windows.map
      (fun w => if w.id = id then { w with minimized := true } else w) }

/-- The per-window body of `toggleMaximize`: restore from the snapshot (with
`?? 100` / `?? 600` / `?? 400` fallbacks) when maximized, else snapshot the
geometry and fill the viewport `(vw, vh)`. -/
def toggleMaximizeWindow (vw vh : Int) (w : WindowState) : WindowState :=
  if w.maximized then
    { w with
      maximized := false,
      x := w.prevX.getD 100, y := w.prevY.getD 100,
      width := w.prevWidth.getD 600, height := w.prevHeight.getD 400,
      prevX := none, prevY := none, prevWidth := none, prevHeight := none }
  else
    { w with
      maximized := true,
      prevX := some w.x, prevY := some w.y,
      prevWidth := some w.width, prevHeight := some w.height,
      x := 0, y := 0, width := vw, height := vh }

/-- Model of `toggleMaximize(id)`: no-op when no window matches, otherwise apply
`toggleMaximizeWindow` to the matching window (`nextZIndex` untouched). -/
def toggleMaximize (s : WMState) (id : String) (vw vh : Int) : WMState :=
  match s.windows.find? (fun w => w.id = id) with
  | none => s
  | some _ =>
    { s with
      windows := s.windows.map
        (fun w => if w.id = id then toggleMaximizeWindow vw vh w else w) }

/-- Model of `updatePosition(id, x, y)`: set the matching window's position
(unconditionally — there is no `maximized` guard in the source). -/
def updatePosition (s : WMState) (id : String) (x y : Int) : WMState :=
  { s with
    windows := s.windows.map
      (fun w => if w.id = id then { w with x := x, y := y } else w) }

/-- Model of `updateSize(id, width, height)`: set the matching window's size
(unconditionally — there is no `maximized` guard in the source). -/
def updateSize (s : WMState) (id : String) (width height : Int) : WMState :=
  { s with
    windows := s.windows.map
      (fun w => if w.id = id then { w with width := width, height := height }
        else w) }

/-- One public window-manager operation, for reachability statements. -/
inductive WMOp where
  | opn (id title : String) (component : Nat) (options : OpenOptions)
  | close (id : String)
  | minimize (id : String)
  | restore (id : String)
  | toggleMax (id : String) (vw vh : Int)
  | front (id : String)
  | updatePos (id : String) (x y : Int)
  | updateSz (id : String) (width height : Int)
deriving Repr, DecidableEq

/-- Interpret one operation on the store. -/
def applyOp (s : WMState) : WMOp → WMState
  | .opn id title component options => openWindow s id title component options
  | .close id => closeWindow s id
  | .minimize id => minimizeWindow s id
  | .restore id => restoreWindow s id
  | .toggleMax id vw vh => toggleMaximize s id vw vh
  | .front id => bringToFront s id
  | .updatePos id x y => updatePosition s id x y
  | .updateSz id width height => updateSize s id width height

/-- The store reached from the initial state by a sequence of public
operations. -/
def runOps (ops : List WMOp) : WMState := ops.foldl applyOp initWM

/-!
## Association-list (JS `Map`) lemmas
-/

theorem mapFind_nil (k : JStr) : mapFind [] k = none := rfl

theorem mapFind_cons (e : JStr × FileMetadata) (t : Store) (k : JStr) :
    mapFind (e :: t) k = if e.1 = k then some e.2 else mapFind t k := by
  by_cases h : e.1 = k <;> simp [mapFind, List.find?_cons, h]

theorem mapFind_eq_some_mem {files : Store} {k : JStr} {v : FileMetadata}
    (h : mapFind files k = some v) : (k, v) ∈ files := by
  induction files with
  | nil => simp [mapFind] at h
  | cons e t ih =>
    rw [mapFind_cons] at h
    by_cases hek : e.1 = k
    · rw [if_pos hek] at h
      cases e with
      | mk k0 v0 =>
        simp only at hek
        subst hek
        have hv : v0 = v := by injection h
        subst hv
        exact List.mem_cons_self _ _
    · rw [if_neg hek] at h
      exact List.mem_cons_of_mem _ (ih h)

theorem mapFind_mapSet_self (files : Store) (k : JStr) (v : FileMetadata) :
    mapFind (mapSet files k v) k = some v := by
  unfold mapSet
  by_cases h : (files.find? (fun e => e.1 = k)).isSome
  · rw [if_pos h]
    induction files with
    | nil => simp at h
    | cons e t ih =>
      by_cases hek : e.1 = k
      · simp [mapFind, List.find?_cons, hek]
      · rw [List.find?_cons_of_neg _ (by simpa using hek)] at h
        simp only [List.map_cons, if_neg hek]
        rw [mapFind_cons, if_neg hek]
        exact ih h
  · rw [if_neg h]
    have hnone : ∀ x ∈ files, ¬ (fun e => decide (e.1 = k)) x := by
      rw [← List.find?_eq_none]
      cases hfind : files.find? (fun e => e.1 = k) with
      | none => rfl
      | some e => exact absurd (by rw [hfind]; rfl) h
    clear h
    induction files with
    | nil => simp [mapFind_cons]
    | cons e t ih =>
      have hek : ¬ e.1 = k := by simpa using hnone e (List.mem_cons_self e t)
      rw [List.cons_append, mapFind_cons, if_neg hek]
      exact ih (fun x hx => hnone x (List.mem_cons_of_mem _ hx))

theorem mapFind_mapSet_ne (files : Store) (k k' : JStr) (v : FileMetadata)
    (hne : k' ≠ k) : mapFind (mapSet files k v) k' = mapFind files k' := by
  unfold mapSet
  by_cases h : (files.find? (fun e => e.1 = k)).isSome
  · rw [if_pos h]
    clear h
    induction files with
    | nil => rfl
    | cons e t ih =>
      by_cases hek : e.1 = k
      · simp only [List.map_cons, if_pos hek, mapFind_cons]
        rw [if_neg (fun hkk' : k = k' => hne hkk'.symm), if_neg (hek ▸ fun he => hne he.symm)]
        exact ih
      · simp only [List.map_cons, if_neg hek, mapFind_cons]
        by_cases hek' : e.1 = k'
        · rw [if_pos hek', if_pos hek']
        · rw [if_neg hek', if_neg hek']
          exact ih
  · rw [if_neg h]
    clear h
    induction files with
    | nil => simp [mapFind_cons, mapFind, hne, Ne.symm hne]
    | cons e t ih =>
      rw [List.cons_append, mapFind_cons, mapFind_cons]
      by_cases hek' : e.1 = k'
      · rw [if_pos hek', if_pos hek']
      · rw [if_neg hek', if_neg hek']
        exact ih

theorem mapFind_filter_none {files : Store} {k : JStr}
    {p : JStr × FileMetadata → Bool}
    (h : ∀ e ∈ files, e.1 = k → p e = false) :
    mapFind (files.filter p) k = none := by
  simp only [mapFind, Option.map_eq_none', List.find?_eq_none]
  intro x hx
  rw [List.mem_filter] at hx
  intro hxk
  rw [decide_eq_true_eq] at hxk
  rw [h x hx.1 hxk] at hx
  exact Bool.false_ne_true hx.2

theorem mapFind_filter_all {files : Store} {k : JStr}
    {p : JStr × FileMetadata → Bool}
    (h : ∀ e ∈ files, e.1 = k → p e = true) :
    mapFind (files.filter p) k = mapFind files k := by
  induction files with
  | nil => rfl
  | cons e t ih =>
    by_cases hpe : p e = true
    · rw [List.filter_cons_of_pos hpe, mapFind_cons, mapFind_cons]
      by_cases hek : e.1 = k
      · rw [if_pos hek, if_pos hek]
      · rw [if_neg hek, if_neg hek]
        exact ih (fun x hx => h x (List.mem_cons_of_mem _ hx))
    · have hek : ¬ e.1 = k := by
        intro hek
        exact hpe (h e (List.mem_cons_self e t) hek)
      rw [List.filter_cons_of_neg (by simpa using hpe), mapFind_cons, if_neg hek]
      exact ih (fun x hx => h x (List.mem_cons_of_mem _ hx))

theorem mapFind_mapDelete_ne (files : Store) (k k' : JStr) (hne : k' ≠ k) :
    mapFind (mapDelete files k) k' = mapFind files k' := by
  unfold mapDelete
  apply mapFind_filter_all
  intro e _ hek
  simp [hek, hne]

theorem mapFind_mapDelete_self (files : Store) (k : JStr) :
    mapFind (mapDelete files k) k = none := by
  unfold mapDelete
  apply mapFind_filter_none
  intro e _ hek
  simp [hek]

/-!
## `normalizePath` lemmas
-/

theorem dropWhile_eq_self_of_head? {α : Type} {P : α → Bool} {l : List α}
    (h : ∀ a, l.head? = some a → ¬ P a) : l.dropWhile P = l := by
  cases l with
  | nil => rfl
  | cons a t => exact List.dropWhile_cons_of_neg (h a rfl)

theorem normalizePath_eq_self {p : JStr} (hh : p.head? ≠ some sep)
    (hl : p.getLast? ≠ some sep) : normalizePath p = p := by
  have h1 : p.dropWhile (fun c => decide (c = sep)) = p := by
    apply dropWhile_eq_self_of_head?
    intro a ha hpa
    have haeq : a = sep := by simpa using hpa
    subst haeq
    exact hh ha
  have h2 : p.reverse.dropWhile (fun c => decide (c = sep)) = p.reverse := by
    apply dropWhile_eq_self_of_head?
    intro a ha hpa
    have haeq : a = sep := by simpa using hpa
    subst haeq
    rw [List.head?_reverse] at ha
    exact hl ha
  unfold normalizePath
  rw [h1, h2, List.reverse_reverse]

theorem head?_ne_sep_of_normalized {p : JStr} (h : normalizePath p = p) :
    p.head? ≠ some sep := by
  intro hh
  cases p with
  | nil => simp at hh
  | cons a t =>
    have ha : a = sep := by simpa using hh
    subst ha
    have hlen : (normalizePath (sep :: t)).length ≤ t.length := by
      unfold normalizePath
      rw [List.length_reverse]
      calc (List.dropWhile (fun c => decide (c = sep))
              (((sep :: t).dropWhile (fun c => decide (c = sep))).reverse)).length
          ≤ ((sep :: t).dropWhile (fun c => decide (c = sep))).reverse.length :=
            (List.dropWhile_sublist _).length_le
        _ = ((sep :: t).dropWhile (fun c => decide (c = sep))).length :=
            List.length_reverse _
        _ = (t.dropWhile (fun c => decide (c = sep))).length := by
            rw [List.dropWhile_cons_of_pos (by simp)]
        _ ≤ t.length := (List.dropWhile_sublist _).length_le
    rw [h] at hlen
    simp at hlen

theorem getLast?_ne_sep_of_normalized {p : JStr} (h : normalizePath p = p) :
    p.getLast? ≠ some sep := by
  intro hl
  cases hq : p.dropWhile (fun c => decide (c = sep)) with
  | nil =>
    have hnp : normalizePath p = [] := by
      unfold normalizePath
      rw [hq]
      rfl
    rw [h] at hnp
    subst hnp
    simp at hl
  | cons b q =>
    have hsuf : (b :: q) <:+ p := hq ▸ List.dropWhile_suffix _
    have hlast : (b :: q).getLast? = p.getLast? := by
      obtain ⟨pre, hpre⟩ := hsuf
      rw [← hpre, List.getLast?_append_of_ne_nil _ (by simp)]
    have hrev : ((b :: q).reverse).head? = some sep := by
      rw [List.head?_reverse, hlast]
      exact hl
    obtain ⟨c, rest, hcr⟩ : ∃ c rest, (b :: q).reverse = c :: rest := by
      cases hx : (b :: q).reverse with
      | nil => exact absurd (congrArg List.length hx) (by simp)
      | cons c rest => exact ⟨c, rest, rfl⟩
    have hc : c = sep := by
      rw [hcr] at hrev
      simpa using hrev
    have hlen : (normalizePath p).length < p.length := by
      unfold normalizePath
      rw [hq, hcr, List.length_reverse]
      have h1 : ((c :: rest).dropWhile (fun c => decide (c = sep))).length ≤ rest.length := by
        rw [List.dropWhile_cons_of_pos (by simp [hc])]
        exact (List.dropWhile_sublist _).length_le
      have h2 : rest.length + 1 = q.length + 1 := by
        have := congrArg List.length hcr
        simpa using this.symm
      have h3 : q.length + 1 ≤ p.length := by
        have := hsuf.length_le
        simpa using this
      omega
    rw [h] at hlen
    omega

theorem sepFree_normalized {p : JStr} (hs : sep ∉ p) : normalizePath p = p := by
  apply normalizePath_eq_self
  · intro hh
    exact hs (List.mem_of_mem_head? (by rw [hh]; rfl))
  · intro hl
    exact hs (List.mem_of_mem_getLast? (by rw [hl]; rfl))

theorem childPath_normalized {folder name : JStr} (hf : normalizePath folder = folder)
    (hn : name ≠ []) (hs : sep ∉ name) :
    normalizePath (childPath folder name) = childPath folder name := by
  unfold childPath
  by_cases hfe : folder = []
  · rw [if_pos hfe]
    exact sepFree_normalized hs
  · rw [if_neg hfe, hf]
    apply normalizePath_eq_self
    · cases folder with
      | nil => exact absurd rfl hfe
      | cons a t =>
        have := head?_ne_sep_of_normalized hf
        simpa using this
    · rw [List.getLast?_append_of_ne_nil _ (by simp)]
      cases name with
      | nil => exact absurd rfl hn
      | cons b u =>
        rw [List.getLast?_cons_cons]
        intro habs
        exact hs (List.mem_of_mem_getLast? (by rw [habs]; rfl))

/-!
## C7: write/read round trip
-/

/-- C7: for every store and every valid `(name, content, parent)` — `name` a
non-empty leaf component containing no `/`, `parent` a normalized path —
after `writeFile(name, content, parent)`, `readFile` on the written path
`parent/name` returns exactly `content`. -/
theorem write_read_roundtrip (files : Store) (filename content folder : JStr)
    (now : Nat) (hn : filename ≠ []) (hs : sep ∉ filename)
    (hf : normalizePath folder = folder) :
    readFile (writeFile files filename content folder now)
      (childPath folder filename) = some content := by
  have hnorm : normalizePath (childPath folder filename) = childPath folder filename :=
    childPath_normalized hf hn hs
  simp only [readFile, writeFile, hnorm, mapFind_mapSet_self]
  rfl

/-- Witness for `write_read_roundtrip` at a concrete input. -/
theorem write_read_roundtrip_witness :
    ("a.txt".toList ≠ [] ∧ sep ∉ "a.txt".toList ∧
      normalizePath "docs".toList = "docs".toList) ∧
    readFile (writeFile [] "a.txt".toList "hi".toList "docs".toList 5)
      (childPath "docs".toList "a.txt".toList) = some "hi".toList :=
  ⟨⟨by decide, by decide, by decide⟩,
    write_read_roundtrip [] _ _ _ 5 (by decide) (by decide) (by decide)⟩

/-!
## C5: error reporting of `createFolder`
-/

/-- A store holding a single folder entry at path `docs`, used as a concrete
input below. -/
def folderDocs : FileMetadata :=
  { name := "docs".toList, path := "docs".toList, content := [], size := 0,
    modified := 10, created := 10, isFolder := true }

/-- A one-entry concrete store. -/
def exStore : Store := [("docs".toList, folderDocs)]

/-- C5 counterexample: `createFolder` on an already-existing path does not
signal `AlreadyExists` as a result value — it throws
(`throw new Error("Folder already exists")`, modelled as `Except.error`). -/
theorem createFolder_throws_on_existing :
    createFolder exStore "docs".toList [] 11 =
      Except.error "Folder already exists".toList := by
  rfl

/-- C5 (amended): `createFolder` raises an exception — rather than returning
a result value — exactly when an Entry already exists at
`parent_path/name`; the other VFS operations (`writeFile`, `readFile`,
`deleteFile`, `moveFile`, `renameFile`) return plain values. -/
theorem createFolder_error_iff_exists (files : Store)
    (folderName parentFolder : JStr) (now : Nat) :
    (∃ msg, createFolder files folderName parentFolder now = Except.error msg) ↔
      (mapFind files (childPath parentFolder folderName)).isSome = true := by
  unfold createFolder
  by_cases h : (mapFind files (childPath parentFolder folderName)).isSome
  · simp [h]
  · simp [h]

/-!
## C9: `writeFile` over an existing folder entry
-/

/-- A folder entry whose `created` timestamp is `0` (falsy in JavaScript). -/
def folderZero : FileMetadata :=
  { name := ['d'], path := ['d'], content := [], size := 0,
    modified := 0, created := 0, isFolder := true }

/-- C9 counterexample: when the overwritten folder's `created` timestamp is
`0`, `existing?.created || now` discards it, so the original `created` is
not preserved. -/
theorem writeFile_created_zero_not_preserved :
    folderZero.isFolder = true ∧ folderZero.created = 0 ∧
    (mapFind (writeFile [(['d'], folderZero)] ['d'] ['h', 'i'] [] 5) ['d']).map
      (fun v => v.created) = some 5 ∧ (5 : Nat) ≠ 0 := by
  exact ⟨rfl, rfl, rfl, by decide⟩

/-- C9 (amended): for every store containing an Entry (in particular a folder
Entry) at `parent/name` whose `created` timestamp is non-zero,
`writeFile(name, content, parent)` succeeds, replacing it by a file Entry
(`isFolder = false`) that keeps the original `created` and carries the new
content, and every other path — in particular every former descendant of the
folder — is untouched. -/
theorem writeFile_over_folder (files : Store) (filename content folder : JStr)
    (now : Nat) (e : FileMetadata)
    (hfind : mapFind files (childPath folder filename) = some e)
    (hfolder : e.isFolder = true) (hc : e.created ≠ 0) :
    (∃ v, mapFind (writeFile files filename content folder now)
        (childPath folder filename) = some v ∧
      v.isFolder = false ∧ v.created = e.created ∧ v.content = content) ∧
    ∀ p, p ≠ childPath folder filename →
      mapFind (writeFile files filename content folder now) p = mapFind files p := by
  have hw : writeFile files filename content folder now =
      mapSet files (childPath folder filename)
        { name := filename, path := childPath folder filename,
          content := content, size := content.length, modified := now,
          created := e.created, isFolder := false } := by
    simp only [writeFile, hfind]
    rw [if_neg hc]
  constructor
  · refine ⟨{ name := filename
              path := childPath folder filename
              content := content
              size := content.length
              modified := now
              created := e.created
              isFolder := false }, ?_, rfl, rfl, rfl⟩
    rw [hw]
    exact mapFind_mapSet_self _ _ _
  · intro p hp
    rw [hw]
    exact mapFind_mapSet_ne _ _ _ _ hp

/-- Witness for `writeFile_over_folder` at a concrete input. -/
theorem writeFile_over_folder_witness :
    (mapFind exStore (childPath [] "docs".toList) = some folderDocs ∧
      folderDocs.isFolder = true ∧ folderDocs.created ≠ 0) ∧
    ((∃ v, mapFind (writeFile exStore "docs".toList ['h'] [] 99)
        (childPath [] "docs".toList) = some v ∧
      v.isFolder = false ∧ v.created = folderDocs.created ∧ v.content = ['h']) ∧
    ∀ p, p ≠ childPath [] "docs".toList →
      mapFind (writeFile exStore "docs".toList ['h'] [] 99) p = mapFind exStore p) :=
  ⟨⟨by decide, by decide, by decide⟩,
    writeFile_over_folder exStore "docs".toList ['h'] [] 99 folderDocs
      (by decide) (by decide) (by decide)⟩

/-!
## C1: cascading folder delete
-/

/-- C1: deleting a folder Entry stored at normalized path `f` succeeds,
removes the Entry at `f` and every Entry whose path is `f ++ "/" ++ suffix`,
and leaves the Entry at every other path unchanged. -/
theorem deleteFile_folder_cascade (files : Store) (f : JStr) (e : FileMetadata)
    (hnorm : normalizePath f = f) (hfind : mapFind files f = some e)
    (hfolder : e.isFolder = true) :
    (deleteFile files f).1 = true ∧
    (∀ p, (p = f ∨ (f ++ [sep]).isPrefixOf p) →
      mapFind (deleteFile files f).2 p = none) ∧
    (∀ p, ¬ (p = f ∨ (f ++ [sep]).isPrefixOf p) →
      mapFind (deleteFile files f).2 p = mapFind files p) := by
  have hdel : deleteFile files f =
      (true, files.filter
        (fun e' => ¬ (e'.1 = f ∨ (f ++ [sep]).isPrefixOf e'.1))) := by
    simp only [deleteFile, hnorm, hfind, hfolder]
    rfl
  rw [hdel]
  refine ⟨rfl, ?_, ?_⟩
  · intro p hp
    apply mapFind_filter_none
    intro e' _ hpe
    subst hpe
    simp only [decide_eq_false_iff_not, Decidable.not_not]
    exact hp
  · intro p hp
    apply mapFind_filter_all
    intro e' _ hpe
    subst hpe
    simp only [decide_eq_true_eq]
    exact hp

/-- A two-entry store: the folder `docs` and the file `docs/a.txt` inside
it, plus an unrelated top-level file `top`. -/
def exStore2 : Store :=
  [("docs".toList, folderDocs),
   ("docs/a.txt".toList,
    { name := "a.txt".toList, path := "docs/a.txt".toList,
      content := "hi".toList, size := 2, modified := 11, created := 11,
      isFolder := false }),
   ("top".toList,
    { name := "top".toList, path := "top".toList, content := "t".toList,
      size := 1, modified := 12, created := 12, isFolder := false })]

/-- Witness for `deleteFile_folder_cascade` at a concrete input. -/
theorem deleteFile_folder_cascade_witness :
    (normalizePath "docs".toList = "docs".toList ∧
      mapFind exStore2 "docs".toList = some folderDocs ∧
      folderDocs.isFolder = true) ∧
    (("docs/a.txt".toList = "docs".toList ∨
        ("docs".toList ++ [sep]).isPrefixOf "docs/a.txt".toList) →
      mapFind (deleteFile exStore2 "docs".toList).2 "docs/a.txt".toList = none) ∧
    (¬ ("top".toList = "docs".toList ∨
        ("docs".toList ++ [sep]).isPrefixOf "top".toList) →
      mapFind (deleteFile exStore2 "docs".toList).2 "top".toList =
        mapFind exStore2 "top".toList) :=
  ⟨⟨by decide, by decide, by decide⟩,
    (deleteFile_folder_cascade exStore2 "docs".toList folderDocs
      (by decide) (by decide) (by decide)).2.1 "docs/a.txt".toList,
    (deleteFile_folder_cascade exStore2 "docs".toList folderDocs
      (by decide) (by decide) (by decide)).2.2 "top".toList⟩

/-!
## Window-manager helper lemmas
-/

theorem map_eq_self_of_eq {α : Type} {f : α → α} {l : List α}
    (h : ∀ a ∈ l, f a = a) : l.map f = l := by
  induction l with
  | nil => rfl
  | cons a t ih =>
    rw [List.map_cons, h a (List.mem_cons_self a t),
      ih (fun x hx => h x (List.mem_cons_of_mem _ hx))]

theorem find?_id_map (l : List WindowState) (id : String)
    (f : WindowState → WindowState) (hid : ∀ w, (f w).id = w.id) :
    (l.map f).find? (fun w => w.id = id) = (l.find? (fun w => w.id = id)).map f := by
  induction l with
  | nil => rfl
  | cons a t ih =>
    by_cases h : a.id = id
    · rw [List.map_cons,
        List.find?_cons_of_pos _ (by simp [hid, h]),
        List.find?_cons_of_pos _ (by simp [h])]
      rfl
    · rw [List.map_cons,
        List.find?_cons_of_neg _ (by simp [hid, h]),
        List.find?_cons_of_neg _ (by simp [h])]
      exact ih

theorem toggleMaximizeWindow_id (vw vh : Int) (w : WindowState) :
    (toggleMaximizeWindow vw vh w).id = w.id := by
  unfold toggleMaximizeWindow
  by_cases hm : w.maximized <;> simp [hm]

/-!
## C4: `updatePosition` / `updateSize` and the maximized guard
-/

/-- A maximized window, with a saved-geometry snapshot, as a concrete
counterexample input. -/
def maxWin : WindowState :=
  { id := "w1", title := "t", component := 0, x := 10, y := 20, width := 600,
    height := 400, minimized := false, maximized := true, zIndex := 1000,
    prevX := some 1, prevY := some 2, prevWidth := some 3, prevHeight := some 4 }

/-- A window-manager state holding only `maxWin`. -/
def maxState : WMState := { windows := [maxWin], nextZIndex := 1001 }

/-- C4 counterexample: on a maximized window, `updatePosition` and
`updateSize` are not no-ops — they mutate the geometry (the source has no
`maximized` guard). -/
theorem updatePosition_maximized_not_noop :
    maxWin.maximized = true ∧
    updatePosition maxState "w1" 50 60 ≠ maxState ∧
    updateSize maxState "w1" 700 500 ≠ maxState := by
  refine ⟨rfl, ?_, ?_⟩ <;> decide

/-- C4 (amended): `updatePosition(id, x, y)` / `updateSize(id, w, h)` are
no-ops when no window with `id` exists; when one exists they mutate its
geometry unconditionally — also when the window is maximized. -/
theorem updateGeometry_behavior (s : WMState) (id : String) (x y wd ht : Int) :
    ((∀ w ∈ s.windows, w.id ≠ id) →
      updatePosition s id x y = s ∧ updateSize s id wd ht = s) ∧
    (∀ w, s.windows.find? (fun w' => w'.id = id) = some w →
      (updatePosition s id x y).windows.find? (fun w' => w'.id = id) =
        some { w with x := x, y := y } ∧
      (updateSize s id wd ht).windows.find? (fun w' => w'.id = id) =
        some { w with width := wd, height := ht }) := by
  constructor
  · intro habs
    constructor
    · simp only [updatePosition]
      rw [map_eq_self_of_eq (fun a ha => by rw [if_neg (habs a ha)])]
    · simp only [updateSize]
      rw [map_eq_self_of_eq (fun a ha => by rw [if_neg (habs a ha)])]
  · intro w hfind
    have hwid : w.id = id := by simpa using List.find?_some hfind
    constructor
    · simp only [updatePosition]
      rw [find?_id_map _ _ _ (fun w' => by by_cases h : w'.id = id <;> simp [h]),
        hfind, Option.map_some', if_pos hwid]
    · simp only [updateSize]
      rw [find?_id_map _ _ _ (fun w' => by by_cases h : w'.id = id <;> simp [h]),
        hfind, Option.map_some', if_pos hwid]

/-- Witness for `updateGeometry_behavior` at a concrete input. -/
theorem updateGeometry_behavior_witness :
    (maxState.windows.find? (fun w' => w'.id = "w1") = some maxWin) ∧
    (updatePosition maxState "w1" 50 60).windows.find? (fun w' => w'.id = "w1") =
      some { maxWin with x := 50, y := 60 } ∧
    (updateSize maxState "w1" 700 500).windows.find? (fun w' => w'.id = "w1") =
      some { maxWin with width := 700, height := 500 } :=
  ⟨by decide,
    (updateGeometry_behavior maxState "w1" 50 60 700 500).2 maxWin (by decide)⟩

/-!
## C10: `toggleMaximize` frame
-/

/-- C10: `toggleMaximize(id)` leaves the global `nextZIndex` counter
unchanged, keeps every window whose id differs untouched (its full record is
still present), and gives every resulting window the same `id`, `title`,
`component`, `zIndex` and `minimized` flag as a window of the original state
— so maximizing never changes stacking order. -/
theorem toggleMaximize_frame (s : WMState) (id : String) (vw vh : Int) :
    (toggleMaximize s id vw vh).nextZIndex = s.nextZIndex ∧
    (∀ w ∈ s.windows, w.id ≠ id → w ∈ (toggleMaximize s id vw vh).windows) ∧
    (∀ w' ∈ (toggleMaximize s id vw vh).windows, ∃ w ∈ s.windows,
      w'.id = w.id ∧ w'.title = w.title ∧ w'.component = w.component ∧
      w'.zIndex = w.zIndex ∧ w'.minimized = w.minimized) := by
  cases hf : s.windows.find? (fun w => w.id = id) with
  | none =>
    simp only [toggleMaximize, hf]
    exact ⟨trivial, fun w hw _ => hw,
      fun w' hw' => ⟨w', hw', rfl, rfl, rfl, rfl, rfl⟩⟩
  | some w0 =>
    simp only [toggleMaximize, hf]
    refine ⟨trivial, ?_, ?_⟩
    · intro w hw hwid
      exact List.mem_map.mpr ⟨w, hw, by rw [if_neg hwid]⟩
    · intro w' hw'
      obtain ⟨w, hw, rfl⟩ := List.mem_map.mp hw'
      by_cases h : w.id = id
      · refine ⟨w, hw, ?_, ?_, ?_, ?_, ?_⟩ <;>
          · rw [if_pos h]
            unfold toggleMaximizeWindow
            by_cases hm : w.maximized <;> simp [hm]
      · rw [if_neg h]
        exact ⟨w, hw, rfl, rfl, rfl, rfl, rfl⟩

/-- Witness for `toggleMaximize_frame` at a concrete input. -/
theorem toggleMaximize_frame_witness :
    (toggleMaximize maxState "w1" 1920 1080).nextZIndex = maxState.nextZIndex ∧
    (maxWin ∈ maxState.windows → maxWin.id ≠ "zzz" →
      maxWin ∈ (toggleMaximize maxState "zzz" 1920 1080).windows) ∧
    ∃ w ∈ maxState.windows,
      (toggleMaximizeWindow 1920 1080 maxWin).id = w.id ∧
      (toggleMaximizeWindow 1920 1080 maxWin).title = w.title ∧
      (toggleMaximizeWindow 1920 1080 maxWin).component = w.component ∧
      (toggleMaximizeWindow 1920 1080 maxWin).zIndex = w.zIndex ∧
      (toggleMaximizeWindow 1920 1080 maxWin).minimized = w.minimized :=
  ⟨(toggleMaximize_frame maxState "w1" 1920 1080).1,
    fun hmem hne => (toggleMaximize_frame maxState "zzz" 1920 1080).2.1 maxWin hmem hne,
    (toggleMaximize_frame maxState "w1" 1920 1080).2.2
      (toggleMaximizeWindow 1920 1080 maxWin) (by decide)⟩

/-!
## C6: double `toggleMaximize` restores geometry
-/

theorem toggleMaximize_find (s : WMState) (id : String) (vw vh : Int)
    (w : WindowState)
    (hfind : s.windows.find? (fun w' => w'.id = id) = some w) :
    (toggleMaximize s id vw vh).windows.find? (fun w' => w'.id = id) =
      some (toggleMaximizeWindow vw vh w) := by
  have hwid : w.id = id := by simpa using List.find?_some hfind
  simp only [toggleMaximize, hfind]
  rw [find?_id_map _ _ _ (fun w' => by
      by_cases h : w'.id = id
      · rw [if_pos h, toggleMaximizeWindow_id]
      · rw [if_neg h]),
    hfind, Option.map_some', if_pos hwid]

/-- C6: applying `toggleMaximize` twice to a non-maximized open window
returns its `x`, `y`, `width`, `height` to the pre-maximize values, with
`maximized = false` and the saved-geometry snapshot cleared. -/
theorem toggleMaximize_twice_restores (s : WMState) (id : String) (vw vh : Int)
    (w : WindowState)
    (hfind : s.windows.find? (fun w' => w'.id = id) = some w)
    (hmax : w.maximized = false) :
    (toggleMaximize (toggleMaximize s id vw vh) id vw vh).windows.find?
        (fun w' => w'.id = id) =
      some { w with maximized := false, prevX := none, prevY := none,
                    prevWidth := none, prevHeight := none } := by
  have hstep1 := toggleMaximize_find s id vw vh w hfind
  have hstep2 := toggleMaximize_find _ id vw vh _ hstep1
  rw [hstep2]
  unfold toggleMaximizeWindow
  simp [hmax]

/-- A non-maximized window used as a concrete input. -/
def plainWin : WindowState :=
  { id := "w2", title := "u", component := 1, x := 30, y := 40, width := 610,
    height := 410, minimized := false, maximized := false, zIndex := 1000 }

/-- A one-window state holding `plainWin`. -/
def plainState : WMState := { windows := [plainWin], nextZIndex := 1001 }

/-- Witness for `toggleMaximize_twice_restores` at a concrete input. -/
theorem toggleMaximize_twice_restores_witness :
    (plainState.windows.find? (fun w' => w'.id = "w2") = some plainWin ∧
      plainWin.maximized = false) ∧
    (toggleMaximize (toggleMaximize plainState "w2" 1920 1080) "w2" 1920 1080).windows.find?
        (fun w' => w'.id = "w2") =
      some { plainWin with maximized := false, prevX := none, prevY := none,
                           prevWidth := none, prevHeight := none } :=
  ⟨⟨by decide, by decide⟩,
    toggleMaximize_twice_restores plainState "w2" 1920 1080 plainWin
      (by decide) (by decide)⟩

/-!
## C8: `openWindow` on an existing id
-/

/-- C8: when a window record with `id` already exists, `openWindow` degrades
to `restoreWindow` (if minimized) or `bringToFront` (otherwise): no record is
created or replaced (window count and all titles are unchanged), and the
supplied `title`, `component` and `options` have no effect. -/
theorem openWindow_existing_degrades (s : WMState) (id title : String)
    (component : Nat) (options : OpenOptions) (w : WindowState)
    (hfind : s.windows.find? (fun w' => w'.id = id) = some w) :
    openWindow s id title component options =
      (if w.minimized then restoreWindow s id else bringToFront s id) ∧
    (openWindow s id title component options).windows.length = s.windows.length ∧
    (openWindow s id title component options).windows.map (fun w' => w'.title) =
      s.windows.map (fun w' => w'.title) := by
  have h1 : openWindow s id title component options =
      if w.minimized then restoreWindow s id else bringToFront s id := by
    simp only [openWindow, hfind]
  refine ⟨h1, ?_, ?_⟩
  · rw [h1]
    by_cases hm : w.minimized <;> simp [hm, restoreWindow, bringToFront]
  · rw [h1]
    by_cases hm : w.minimized <;>
      simp only [hm, if_true, if_false, restoreWindow, bringToFront,
        Bool.false_eq_true, List.map_map] <;>
      · apply List.map_congr_left
        intro a _
        by_cases h : a.id = id <;> simp [h]

/-- A two-window state: `plainWin` open and a minimized window `w3`. -/
def minWin : WindowState :=
  { id := "w3", title := "v", component := 2, x := 50, y := 60, width := 620,
    height := 420, minimized := true, maximized := false, zIndex := 1001 }

/-- The state holding `plainWin` and `minWin`. -/
def twoState : WMState := { windows := [plainWin, minWin], nextZIndex := 1002 }

/-- Witness for `openWindow_existing_degrades` at a concrete input. -/
theorem openWindow_existing_degrades_witness :
    (twoState.windows.find? (fun w' => w'.id = "w3") = some minWin) ∧
    (openWindow twoState "w3" "other title" 9 { x := some 5 } =
      (if minWin.minimized then restoreWindow twoState "w3"
        else bringToFront twoState "w3") ∧
    (openWindow twoState "w3" "other title" 9 { x := some 5 }).windows.length =
      twoState.windows.length ∧
    (openWindow twoState "w3" "other title" 9 { x := some 5 }).windows.map
        (fun w' => w'.title) =
      twoState.windows.map (fun w' => w'.title)) :=
  ⟨by decide,
    openWindow_existing_degrades twoState "w3" "other title" 9 { x := some 5 }
      minWin (by decide)⟩

/-!
## C3: z-index uniqueness and `bringToFront` supremacy
-/

/-- The window-manager invariant: window ids are pairwise distinct, z-indices
are pairwise distinct, and every z-index is below the global counter. -/
def WMInv (s : WMState) : Prop :=
  s.windows.Pairwise (fun a b => a.id ≠ b.id) ∧
  s.windows.Pairwise (fun a b => a.zIndex ≠ b.zIndex) ∧
  ∀ w ∈ s.windows, w.zIndex < s.nextZIndex

theorem WMInv_map_local (s : WMState) (f : WindowState → WindowState)
    (hid : ∀ w, (f w).id = w.id) (hz : ∀ w, (f w).zIndex = w.zIndex)
    (hinv : WMInv s) : WMInv { s with windows := s.windows.map f } := by
  obtain ⟨h1, h2, h3⟩ := hinv
  refine ⟨?_, ?_, ?_⟩
  · rw [List.pairwise_map]
    exact h1.imp (fun h => by rw [hid, hid]; exact h)
  · rw [List.pairwise_map]
    exact h2.imp (fun h => by rw [hz, hz]; exact h)
  · intro w hw
    obtain ⟨a, ha, rfl⟩ := List.mem_map.mp hw
    rw [hz]
    exact h3 a ha

theorem WMInv_bump (s : WMState) (id : String) (f : WindowState → WindowState)
    (hid : ∀ w, (f w).id = w.id)
    (hzeq : ∀ w, w.id = id → (f w).zIndex = s.nextZIndex)
    (hzne : ∀ w, w.id ≠ id → (f w).zIndex = w.zIndex)
    (hinv : WMInv s) :
    WMInv { windows := s.windows.map f, nextZIndex := s.nextZIndex + 1 } := by
  obtain ⟨h1, h2, h3⟩ := hinv
  refine ⟨?_, ?_, ?_⟩
  · rw [List.pairwise_map]
    exact h1.imp (fun h => by rw [hid, hid]; exact h)
  · rw [List.pairwise_map]
    refine (List.pairwise_and_iff.mpr ⟨h1, h2⟩).imp_of_mem ?_
    intro a b ha hb hab
    obtain ⟨hab_id, hab_z⟩ := hab
    by_cases haid : a.id = id
    · have hbid : b.id ≠ id := fun hb' => hab_id (haid.trans hb'.symm)
      rw [hzeq a haid, hzne b hbid]
      exact fun hcontra => absurd hcontra.symm (Nat.ne_of_lt (h3 b hb))
    · by_cases hbid : b.id = id
      · rw [hzne a haid, hzeq b hbid]
        exact Nat.ne_of_lt (h3 a ha)
      · rw [hzne a haid, hzne b hbid]
        exact hab_z
  · intro w hw
    obtain ⟨a, ha, rfl⟩ := List.mem_map.mp hw
    by_cases haid : a.id = id
    · rw [hzeq a haid]
      exact Nat.lt_succ_self _
    · rw [hzne a haid]
      exact Nat.lt_succ_of_lt (h3 a ha)

theorem WMInv_restore (s : WMState) (id : String) (hinv : WMInv s) :
    WMInv (restoreWindow s id) := by
  apply WMInv_bump s id _ _ _ _ hinv
  · intro w
    by_cases h : w.id = id <;> simp [h]
  · intro w h
    simp [h]
  · intro w h
    simp [h]

theorem WMInv_front (s : WMState) (id : String) (hinv : WMInv s) :
    WMInv (bringToFront s id) := by
  apply WMInv_bump s id _ _ _ _ hinv
  · intro w
    by_cases h : w.id = id <;> simp [h]
  · intro w h
    simp [h]
  · intro w h
    simp [h]

theorem WMInv_open (s : WMState) (id title : String) (component : Nat)
    (options : OpenOptions) (hinv : WMInv s) :
    WMInv (openWindow s id title component options) := by
  cases hf : s.windows.find? (fun w => w.id = id) with
  | some existing =>
    have hopen : openWindow s id title component options =
        if existing.minimized then restoreWindow s id else bringToFront s id := by
      simp only [openWindow, hf]
    rw [hopen]
    by_cases hm : existing.minimized
    · rw [if_pos hm]
      exact WMInv_restore s id hinv
    · rw [if_neg hm]
      exact WMInv_front s id hinv
  | none =>
    simp only [openWindow, hf]
    obtain ⟨h1, h2, h3⟩ := hinv
    have hnew : ∀ w ∈ s.windows, ¬ w.id = id := by
      intro x hx
      have := List.find?_eq_none.mp hf x hx
      simpa using this
    refine ⟨?_, ?_, ?_⟩
    · rw [List.pairwise_append]
      exact ⟨h1, List.pairwise_singleton _ _,
        fun a ha b hb => by
          rw [List.mem_singleton] at hb
          subst hb
          exact hnew a ha⟩
    · rw [List.pairwise_append]
      refine ⟨h2, List.pairwise_singleton _ _, ?_⟩
      intro a ha b hb
      rw [List.mem_singleton] at hb
      subst hb
      exact Nat.ne_of_lt (h3 a ha)
    · intro w hw
      rw [List.mem_append, List.mem_singleton] at hw
      cases hw with
      | inl h => exact Nat.lt_succ_of_lt (h3 w h)
      | inr h =>
        subst h
        exact Nat.lt_succ_self _

theorem WMInv_close (s : WMState) (id : String) (hinv : WMInv s) :
    WMInv (closeWindow s id) := by
  obtain ⟨h1, h2, h3⟩ := hinv
  exact ⟨h1.sublist (List.filter_sublist _),
    h2.sublist (List.filter_sublist _),
    fun w hw => h3 w (List.mem_of_mem_filter hw)⟩

theorem WMInv_minimize (s : WMState) (id : String) (hinv : WMInv s) :
    WMInv (minimizeWindow s id) := by
  apply WMInv_map_local s _ _ _ hinv <;>
    · intro w
      by_cases h : w.id = id <;> simp [h]

theorem WMInv_toggleMax (s : WMState) (id : String) (vw vh : Int)
    (hinv : WMInv s) : WMInv (toggleMaximize s id vw vh) := by
  unfold toggleMaximize
  cases hf : s.windows.find? (fun w => w.id = id) with
  | none => exact hinv
  | some w0 =>
    apply WMInv_map_local s _ _ _ hinv
    · intro w
      by_cases h : w.id = id
      · rw [if_pos h, toggleMaximizeWindow_id]
      · rw [if_neg h]
    · intro w
      by_cases h : w.id = id
      · rw [if_pos h]
        unfold toggleMaximizeWindow
        by_cases hm : w.maximized <;> simp [hm]
      · rw [if_neg h]

theorem WMInv_updatePos (s : WMState) (id : String) (x y : Int)
    (hinv : WMInv s) : WMInv (updatePosition s id x y) := by
  apply WMInv_map_local s _ _ _ hinv <;>
    · intro w
      by_cases h : w.id = id <;> simp [h]

theorem WMInv_updateSz (s : WMState) (id : String) (width height : Int)
    (hinv : WMInv s) : WMInv (updateSize s id width height) := by
  apply WMInv_map_local s _ _ _ hinv <;>
    · intro w
      by_cases h : w.id = id <;> simp [h]

theorem applyOp_inv (s : WMState) (op : WMOp) (hinv : WMInv s) :
    WMInv (applyOp s op) := by
  cases op with
  | opn id title component options => exact WMInv_open s id title component options hinv
  | close id => exact WMInv_close s id hinv
  | minimize id => exact WMInv_minimize s id hinv
  | restore id => exact WMInv_restore s id hinv
  | toggleMax id vw vh => exact WMInv_toggleMax s id vw vh hinv
  | front id => exact WMInv_front s id hinv
  | updatePos id x y => exact WMInv_updatePos s id x y hinv
  | updateSz id width height => exact WMInv_updateSz s id width height hinv

theorem foldl_applyOp_inv (ops : List WMOp) (s : WMState) (hinv : WMInv s) :
    WMInv (ops.foldl applyOp s) := by
  induction ops generalizing s with
  | nil => exact hinv
  | cons op t ih => exact ih _ (applyOp_inv s op hinv)

theorem runOps_inv (ops : List WMOp) : WMInv (runOps ops) :=
  foldl_applyOp_inv ops initWM
    ⟨List.Pairwise.nil, List.Pairwise.nil, fun _ hw => absurd hw (List.not_mem_nil _)⟩

/-- C3: in every state reachable from the initial store by the public
operations, no two windows share a z-index; and after `bringToFront(id)` on
such a state, the window with that id has a z-index strictly greater than
every other window's. -/
theorem zindex_unique_and_bringToFront_top (ops : List WMOp) :
    (runOps ops).windows.Pairwise (fun a b => a.zIndex ≠ b.zIndex) ∧
    ∀ id w w', w ∈ (bringToFront (runOps ops) id).windows →
      w' ∈ (bringToFront (runOps ops) id).windows →
      w.id = id → w'.id ≠ id → w'.zIndex < w.zIndex := by
  obtain ⟨h1, h2, h3⟩ := runOps_inv ops
  refine ⟨h2, ?_⟩
  intro id w w' hw hw' hwid hw'id
  obtain ⟨a, ha, rfl⟩ := List.mem_map.mp hw
  obtain ⟨b, hb, rfl⟩ := List.mem_map.mp hw'
  by_cases haid : a.id = id
  · rw [if_pos haid]
    by_cases hbid : b.id = id
    · rw [if_pos haid] at hwid
      rw [if_pos hbid] at hw'id
      exact absurd hbid hw'id
    · rw [if_neg hbid]
      simp only
      exact h3 b hb
  · rw [if_neg haid] at hwid
    exact absurd hwid haid

/-- A concrete operation sequence: open two windows, then raise the first. -/
def demoOps : List WMOp :=
  [WMOp.opn "w1" "A" 0 {}, WMOp.opn "w2" "B" 0 {}]

/-- Witness for `zindex_unique_and_bringToFront_top` at a concrete input:
after opening `w1` and `w2`, `bringToFront "w1"` leaves `w2` strictly
below `w1`. -/
theorem zindex_unique_and_bringToFront_top_witness :
    ∃ w w', w ∈ (bringToFront (runOps demoOps) "w1").windows ∧
      w' ∈ (bringToFront (runOps demoOps) "w1").windows ∧
      w.id = "w1" ∧ w'.id ≠ "w1" ∧ w'.zIndex < w.zIndex := by
  refine ⟨{ id := "w1", title := "A", component := 0, x := 100, y := 100,
            width := 600, height := 400, minimized := false,
            maximized := false, zIndex := 1002 },
          { id := "w2", title := "B", component := 0, x := 130, y := 130,
            width := 600, height := 400, minimized := false,
            maximized := false, zIndex := 1001 }, ?_, ?_, rfl, ?_, ?_⟩
  · decide
  · decide
  · decide
  · exact (zindex_unique_and_bringToFront_top demoOps).2 "w1" _ _
      (by decide) (by decide) (by decide) (by decide)

/-!
## C2: cascading move/rename preserves descendants
-/

/-- Keys of the store are pairwise distinct (a genuine JS `Map`). -/
abbrev keysNodup (files : Store) : Prop := (files.map (fun e => e.1)).Nodup

/-- Every stored key is a normalized path (the spec's data-model invariant:
Entries are keyed by full normalized path). -/
abbrev keysNormalized (files : Store) : Prop :=
  ∀ e ∈ files, normalizePath e.1 = e.1

theorem subtree_key_shape {src k : JStr}
    (hk : (src ++ [sep]).isPrefixOf k = true) (hkn : normalizePath k = k) :
    ∃ r, r ≠ [] ∧ k = src ++ sep :: r := by
  obtain ⟨t, ht⟩ := List.isPrefixOf_iff_prefix.mp hk
  refine ⟨t, ?_, ?_⟩
  · rintro rfl
    apply getLast?_ne_sep_of_normalized hkn
    rw [← ht]
    simpa using List.getLast?_concat src
  · rw [← ht]
    simp

theorem newKeyFor_root (src dst : JStr) : newKeyFor src dst src = dst := by
  simp [newKeyFor]

theorem newKeyFor_child (src dst r : JStr) (hr : r ≠ []) :
    newKeyFor src dst (src ++ sep :: r) = dst ++ sep :: r := by
  unfold newKeyFor
  have hne : ¬ (src ++ sep :: r = src) := by
    intro h
    have := congrArg List.length h
    simp at this
  rw [if_neg hne]
  have hdrop : (src ++ sep :: r).drop (src.length + 1) = r := by
    have hform : src ++ sep :: r = (src ++ [sep]) ++ r := by simp
    rw [hform, List.drop_left' (by simp)]
  rw [hdrop, if_neg hr]

theorem newKeyFor_inj (src dst : JStr) {k k' : JStr}
    (hk : k = src ∨ (src ++ [sep]).isPrefixOf k = true)
    (hk' : k' = src ∨ (src ++ [sep]).isPrefixOf k' = true)
    (hkn : normalizePath k = k) (hk'n : normalizePath k' = k')
    (hne : k ≠ k') : newKeyFor src dst k ≠ newKeyFor src dst k' := by
  have hcase : k = src ∨ ∃ r, r ≠ [] ∧ k = src ++ sep :: r := by
    rcases hk with h | h
    · exact Or.inl h
    · exact Or.inr (subtree_key_shape h hkn)
  have hcase' : k' = src ∨ ∃ r, r ≠ [] ∧ k' = src ++ sep :: r := by
    rcases hk' with h | h
    · exact Or.inl h
    · exact Or.inr (subtree_key_shape h hk'n)
  rcases hcase with rfl | ⟨r, hr, rfl⟩
  · rcases hcase' with rfl | ⟨r', hr', rfl⟩
    · exact absurd rfl hne
    · rw [newKeyFor_root, newKeyFor_child _ _ _ hr']
      intro h
      have := congrArg List.length h
      simp at this
  · rcases hcase' with rfl | ⟨r', hr', rfl⟩
    · rw [newKeyFor_root, newKeyFor_child _ _ _ hr]
      intro h
      have := congrArg List.length h
      simp at this
    · rw [newKeyFor_child _ _ _ hr, newKeyFor_child _ _ _ hr']
      intro h
      apply hne
      have : sep :: r = sep :: r' := List.append_cancel_left h
      rw [List.cons.injEq] at this
      rw [this.2]

theorem foldl_mapSet_find_untouched
    (F : JStr → FileMetadata → FileMetadata)
    (L : List (JStr × JStr × FileMetadata)) (init : Store) (k : JStr)
    (h : ∀ m ∈ L, m.2.1 ≠ k) :
    mapFind (L.foldl (fun fs m => mapSet fs m.2.1 (F m.2.1 m.2.2)) init) k =
      mapFind init k := by
  induction L generalizing init with
  | nil => rfl
  | cons a t ih =>
    rw [List.foldl_cons, ih _ (fun m hm => h m (List.mem_cons_of_mem _ hm))]
    exact mapFind_mapSet_ne _ _ _ _
      (fun hkk => (h a (List.mem_cons_self a t)) hkk.symm)

theorem foldl_mapSet_find_hit
    (F : JStr → FileMetadata → FileMetadata)
    (L₁ L₂ : List (JStr × JStr × FileMetadata))
    (o k : JStr) (m : FileMetadata) (init : Store)
    (h2 : ∀ m' ∈ L₂, m'.2.1 ≠ k) :
    mapFind ((L₁ ++ (o, k, m) :: L₂).foldl
        (fun fs m' => mapSet fs m'.2.1 (F m'.2.1 m'.2.2)) init) k =
      some (F k m) := by
  rw [List.foldl_append, List.foldl_cons,
    foldl_mapSet_find_untouched F L₂ _ k h2]
  exact mapFind_mapSet_self _ _ _

theorem cascadeRekey_find (files : Store) (src dst : JStr)
    (F : JStr → FileMetadata → FileMetadata)
    (hnd : keysNodup files) (hnorm : keysNormalized files)
    (r : JStr) (m : FileMetadata)
    (hfind : mapFind files (src ++ sep :: r) = some m) :
    mapFind (cascadeRekey files src dst F) (dst ++ sep :: r) =
      some (F (dst ++ sep :: r) m) := by
  have hmem : (src ++ sep :: r, m) ∈ files := mapFind_eq_some_mem hfind
  have hkeyn : normalizePath (src ++ sep :: r) = src ++ sep :: r :=
    hnorm _ hmem
  have hr : r ≠ [] := by
    rintro rfl
    apply getLast?_ne_sep_of_normalized hkeyn
    simpa using List.getLast?_concat src
  have hpre : (src ++ [sep]).isPrefixOf (src ++ sep :: r) = true := by
    rw [ List.isPrefixOf_iff_prefix]
    exact ⟨r, by simp⟩
  have hmemf : (src ++ sep :: r, m) ∈ files.filter
      (fun e => decide (e.1 = src ∨ (src ++ [sep]).isPrefixOf e.1 = true)) :=
    List.mem_filter.mpr ⟨hmem, by
      rw [decide_eq_true_eq]
      exact Or.inr hpre⟩
  obtain ⟨l₁, l₂, hsplit⟩ := List.append_of_mem hmemf
  have hfnd : ((files.filter
      (fun e => decide (e.1 = src ∨ (src ++ [sep]).isPrefixOf e.1 = true))).map
        (fun e => e.1)).Nodup :=
    hnd.sublist ((List.filter_sublist files).map (fun e => e.1))
  have hnotin : ∀ e' ∈ l₂, e'.1 ≠ src ++ sep :: r := by
    rw [hsplit] at hfnd
    simp only [List.map_append, List.map_cons] at hfnd
    have h2 := (List.nodup_append.mp hfnd).2.1
    have h3 := (List.nodup_cons.mp h2).1
    intro e' he' habs
    exact h3 (habs ▸ List.mem_map_of_mem (fun e => e.1) he')
  have hsub : ∀ e' ∈ l₂, e' ∈ files.filter
      (fun e => decide (e.1 = src ∨ (src ++ [sep]).isPrefixOf e.1 = true)) := by
    intro e' he'
    rw [hsplit]
    exact List.mem_append.mpr (Or.inr (List.mem_cons_of_mem _ he'))
  unfold cascadeRekey
  rw [hsplit, List.map_append, List.map_cons]
  have hroot : newKeyFor src dst (src ++ sep :: r) = dst ++ sep :: r :=
    newKeyFor_child src dst r hr
  rw [hroot]
  apply foldl_mapSet_find_hit
  intro m' hm'
  obtain ⟨e', he', rfl⟩ := List.mem_map.mp hm'
  simp only [ne_eq]
  rw [← hroot]
  apply newKeyFor_inj src dst
  · have := List.of_mem_filter (hsub e' he')
    rw [decide_eq_true_eq] at this
    exact this
  · exact Or.inr hpre
  · exact hnorm _ (List.mem_of_mem_filter (hsub e' he'))
  · exact hkeyn
  · exact hnotin e' he'

theorem moveFile_preserves_descendant (files : Store)
    (hnd : keysNodup files) (hnorm : keysNormalized files)
    (sourcePath targetFolder : JStr) (sf : FileMetadata) (r : JStr)
    (m : FileMetadata)
    (hsf : mapFind files (normalizePath sourcePath) = some sf)
    (hfld : sf.isFolder = true)
    (hsucc : (moveFile files sourcePath targetFolder).1 = true)
    (hdesc : mapFind files (normalizePath sourcePath ++ sep :: r) = some m) :
    ∃ v, mapFind (moveFile files sourcePath targetFolder).2
        ((if normalizePath targetFolder = [] then sf.name
          else normalizePath targetFolder ++ sep :: sf.name) ++ sep :: r) =
        some v ∧ v.content = m.content := by
  by_cases hin : (mapFind files (if normalizePath targetFolder = [] then sf.name
      else normalizePath targetFolder ++ sep :: sf.name)).isSome
  · exfalso
    have hmv : moveFile files sourcePath targetFolder = (false, files) := by
      simp only [moveFile, hsf]
      rw [if_pos hin]
    rw [hmv] at hsucc
    simp at hsucc
  · have hmv : moveFile files sourcePath targetFolder =
        (true, cascadeRekey files (normalizePath sourcePath)
          (if normalizePath targetFolder = [] then sf.name
           else normalizePath targetFolder ++ sep :: sf.name)
          (fun np m' => { m' with path := np })) := by
      simp only [moveFile, hsf]
      rw [if_neg hin, if_pos hfld]
    have hmv2 : (moveFile files sourcePath targetFolder).2 =
        cascadeRekey files (normalizePath sourcePath)
          (if normalizePath targetFolder = [] then sf.name
           else normalizePath targetFolder ++ sep :: sf.name)
          (fun np m' => { m' with path := np }) := by
      rw [hmv]
    rw [hmv2]
    refine ⟨_, cascadeRekey_find files _ _ _ hnd hnorm r m hdesc, ?_⟩
    rfl

theorem renameFile_preserves_descendant (files : Store)
    (hnd : keysNodup files) (hnorm : keysNormalized files)
    (path newName : JStr) (f : FileMetadata) (r : JStr) (m : FileMetadata)
    (hf : mapFind files (normalizePath path) = some f)
    (hfld : f.isFolder = true)
    (hsucc : (renameFile files path newName).1 = true)
    (hdesc : mapFind files (normalizePath path ++ sep :: r) = some m) :
    ∃ v, mapFind (renameFile files path newName).2
        (List.intercalate [sep]
          (((normalizePath path).splitOn sep).dropLast ++ [newName]) ++
          sep :: r) = some v ∧ v.content = m.content := by
  by_cases hin : (mapFind files (List.intercalate [sep]
      (((normalizePath path).splitOn sep).dropLast ++ [newName]))).isSome
  · exfalso
    have hmv : renameFile files path newName = (false, files) := by
      simp only [renameFile, hf]
      rw [if_pos hin]
    rw [hmv] at hsucc
    simp at hsucc
  · have hmv : renameFile files path newName =
        (true, cascadeRekey files (normalizePath path)
          (List.intercalate [sep]
            (((normalizePath path).splitOn sep).dropLast ++ [newName]))
          (fun np m' =>
            { m' with
              path := np,
              name := if np = List.intercalate [sep]
                  (((normalizePath path).splitOn sep).dropLast ++ [newName])
                then newName else m'.name })) := by
      simp only [renameFile, hf]
      rw [if_neg hin, if_pos hfld]
    have hmv2 : (renameFile files path newName).2 =
        cascadeRekey files (normalizePath path)
          (List.intercalate [sep]
            (((normalizePath path).splitOn sep).dropLast ++ [newName]))
          (fun np m' =>
            { m' with
              path := np,
              name := if np = List.intercalate [sep]
                  (((normalizePath path).splitOn sep).dropLast ++ [newName])
                then newName else m'.name }) := by
      rw [hmv]
    rw [hmv2]
    refine ⟨_, cascadeRekey_find files _ _ _ hnd hnorm r m hdesc, ?_⟩
    rfl

/-- C2: over a store with distinct, normalized keys, a successful
`moveFile(s, target)` or `renameFile(s, new_name)` on a folder re-keys every
descendant `s ++ "/" ++ r` to `destination ++ "/" ++ r` — the destination
computed by the operation — keeping the descendant's content (and hence its
relative sub-path below the folder). -/
theorem cascade_move_rename_preserves_descendants (files : Store)
    (hnd : keysNodup files) (hnorm : keysNormalized files) :
    (∀ sourcePath targetFolder sf r m,
      mapFind files (normalizePath sourcePath) = some sf →
      sf.isFolder = true →
      (moveFile files sourcePath targetFolder).1 = true →
      mapFind files (normalizePath sourcePath ++ sep :: r) = some m →
      ∃ v, mapFind (moveFile files sourcePath targetFolder).2
          ((if normalizePath targetFolder = [] then sf.name
            else normalizePath targetFolder ++ sep :: sf.name) ++ sep :: r) =
          some v ∧ v.content = m.content) ∧
    (∀ path newName f r m,
      mapFind files (normalizePath path) = some f →
      f.isFolder = true →
      (renameFile files path newName).1 = true →
      mapFind files (normalizePath path ++ sep :: r) = some m →
      ∃ v, mapFind (renameFile files path newName).2
          (List.intercalate [sep]
            (((normalizePath path).splitOn sep).dropLast ++ [newName]) ++
            sep :: r) = some v ∧ v.content = m.content) :=
  ⟨fun sourcePath targetFolder sf r m hsf hfld hsucc hdesc =>
    moveFile_preserves_descendant files hnd hnorm sourcePath targetFolder
      sf r m hsf hfld hsucc hdesc,
   fun path newName f r m hf hfld hsucc hdesc =>
    renameFile_preserves_descendant files hnd hnorm path newName
      f r m hf hfld hsucc hdesc⟩

/-- The folder entry `d` of the concrete cascade store. -/
def folderD : FileMetadata :=
  { name := ['d'], path := ['d'], content := [], size := 0, modified := 1,
    created := 1, isFolder := true }

/-- The file entry `d/x` of the concrete cascade store. -/
def fileX : FileMetadata :=
  { name := ['x'], path := ['d', '/', 'x'], content := "hi".toList, size := 2,
    modified := 2, created := 2, isFolder := false }

/-- A concrete store holding the folder `d` and the file `d/x`. -/
def cstore : Store := [(['d'], folderD), (['d', '/', 'x'], fileX)]

/-- Witness for `cascade_move_rename_preserves_descendants` at a concrete
input: moving folder `d` into `t` and renaming `d` to `e` both carry the
descendant `d/x` along with its content. -/
theorem cascade_move_rename_preserves_descendants_witness :
    (keysNodup cstore ∧ keysNormalized cstore ∧
      mapFind cstore (normalizePath ['d']) = some folderD ∧
      folderD.isFolder = true ∧
      (moveFile cstore ['d'] ['t']).1 = true ∧
      (renameFile cstore ['d'] ['e']).1 = true ∧
      mapFind cstore (normalizePath ['d'] ++ sep :: ['x']) = some fileX) ∧
    (∃ v, mapFind (moveFile cstore ['d'] ['t']).2
        ((if normalizePath ['t'] = [] then folderD.name
          else normalizePath ['t'] ++ sep :: folderD.name) ++ sep :: ['x']) =
        some v ∧ v.content = fileX.content) ∧
    (∃ v, mapFind (renameFile cstore ['d'] ['e']).2
        (List.intercalate [sep]
          (((normalizePath ['d']).splitOn sep).dropLast ++ [['e']]) ++
          sep :: ['x']) = some v ∧ v.content = fileX.content) :=
  ⟨⟨by decide, by decide, by decide, by decide, by decide, by decide,
    by decide⟩,
   (cascade_move_rename_preserves_descendants cstore (by decide) (by decide)).1
     ['d'] ['t'] folderD ['x'] fileX (by decide) (by decide) (by decide)
     (by decide),
   (cascade_move_rename_preserves_descendants cstore (by decide) (by decide)).2
     ['d'] ['e'] folderD ['x'] fileX (by decide) (by decide) (by decide)
     (by decide)⟩
